import Mathlib

/-!
# Verification of `telegram-video-converter` (`src/main.rs`)

A shallow embedding of the Rust program in Lean 4, together with theorems
settling the specification claims.

The program is a CLI wrapper around `ffmpeg`.  The embedding covers:

* the pure path derivation `generate_output_path` (Rust `std::path::Path`
  operations `parent`, `file_stem`, `join` are modelled for Unix path
  strings at the level of `List Char`);
* the pure assembly of the `ffmpeg` argument list built in `main`;
* the byte-size formatter `format_bytes`;
* the effectful control flow of `main`, modelled as a pure function from an
  abstract environment (filesystem / encoder behaviour) to a trace of
  observable events plus a process exit code.

Machine integers: the Rust fields are `u32`/`u64`; they are modelled as `Nat`
with an explicit `% 2 ^ 32` at the one place the program performs arithmetic
that can overflow (`args.bitrate * 2`, which wraps in release builds).
-/

namespace TVC

/-! ## Characters and path pieces

Rust's `std::path` (Unix) parses a path into components: an optional leading
root `/`, then the pieces between separators, where empty pieces and `.`
pieces are normalised away except that a leading `.` piece is kept.
We work on `List Char` so that the splitting and joining functions are
structurally recursive and easy to reason about. -/

/-- Split a character list at every `'/'` (like `str::split('/')`):
`splitSlash "a/b" = [[a],[b]]`, `splitSlash "" = [[]]`. -/
def splitSlash : List Char → List (List Char)
  | [] => [[]]
  | c :: cs =>
    if c = '/' then [] :: splitSlash cs
    else
      match splitSlash cs with
      | [] => [[c]]
      | p :: ps => (c :: p) :: ps

/-- Join pieces with `'/'` between them: the left inverse of `splitSlash`. -/
def joinSlash : List (List Char) → List Char
  | [] => []
  | [p] => p
  | p :: ps => p ++ '/' :: joinSlash ps

theorem splitSlash_ne_nil (cs : List Char) : splitSlash cs ≠ [] := by
  induction cs with
  | nil => simp [splitSlash]
  | cons c cs ih =>
    simp only [splitSlash]
    split
    · simp
    · split
      · simp
      · simp

theorem joinSlash_cons (p : List Char) (ps : List (List Char)) :
    joinSlash (p :: ps) = if ps = [] then p else p ++ '/' :: joinSlash ps := by
  cases ps <;> simp [joinSlash]

theorem not_slash_mem_splitSlash (cs : List Char) :
    ∀ p ∈ splitSlash cs, '/' ∉ p := by
  induction cs with
  | nil => simp [splitSlash]
  | cons c cs ih =>
    simp only [splitSlash]
    split
    · intro p hp
      rcases List.mem_cons.mp hp with h | h
      · simp [h]
      · exact ih p h
    · rename_i hc
      cases hsp : splitSlash cs with
      | nil => exact absurd hsp (splitSlash_ne_nil cs)
      | cons q qs =>
        intro p hp
        rcases List.mem_cons.mp hp with h | h
        · subst h
          intro hmem
          rcases List.mem_cons.mp hmem with h | h
          · exact hc h.symm
          · exact ih q (hsp ▸ List.mem_cons_self q qs) h
        · exact ih p (hsp ▸ List.mem_cons_of_mem q h)

/-- The last char of a slash-join is the last char of the last (nonempty) piece. -/
theorem joinSlash_getLast? (ps : List (List Char)) (q : List Char) (hq : q ≠ []) :
    (joinSlash (ps ++ [q])).getLast? = q.getLast? := by
  induction ps with
  | nil => simp [joinSlash]
  | cons p ps ih =>
    rw [List.cons_append, joinSlash_cons, if_neg (by simp : ¬ps ++ [q] = [])]
    obtain ⟨x, hx⟩ := Option.isSome_iff_exists.mp (List.getLast?_isSome.mpr hq)
    rw [List.getLast?_append, List.getLast?_cons, ih, hx]
    simp

/-! ## Rust `std::path` components (Unix) -/

/-- A parsed path component, as in Rust's `std::path::Component` (Unix: no
prefix components). -/
inductive PathComp where
  | rootDir
  | curDir
  | parentDir
  | normal (name : List Char)
deriving DecidableEq

/-- Map a raw piece (text between separators) to a component.  `".."` is the
special `ParentDir` component; empty and `"."` pieces are filtered out by the
caller before this map is applied. -/
def pieceToComp (p : List Char) : PathComp :=
  if p = ['.', '.'] then .parentDir else .normal p

/-- Components of a non-empty path, from its separator-split pieces.  Mirrors
Rust's normalisation: a leading empty piece marks the root `/`; among the
remaining pieces, empty and `"."` pieces are dropped (a leading `"."` piece is
kept as `CurDir`). -/
def compsOfPieces : List (List Char) → List PathComp
  | [] => []
  | first :: rest =>
    let restComps := (rest.filter fun p => decide (p ≠ [] ∧ p ≠ ['.'])).map pieceToComp
    if first = [] then .rootDir :: restComps
    else if first = ['.'] then .curDir :: restComps
    else if first = ['.', '.'] then .parentDir :: restComps
    else .normal first :: restComps

/-- `Path::components` for a Unix path given as a character list.  The empty
path has no components. -/
def pathComponents (cs : List Char) : List PathComp :=
  if cs = [] then [] else compsOfPieces (splitSlash cs)

/-- The text of one component (the root contributes its leading `/` through
`renderComps` instead). -/
def compChars : PathComp → List Char
  | .rootDir => []
  | .curDir => ['.']
  | .parentDir => ['.', '.']
  | .normal n => n

/-- Turn a component list back into path text, as Rust's `Components::as_path`
does for the (normalised) component sequences produced here. -/
def renderComps : List PathComp → List Char
  | [] => []
  | [.rootDir] => ['/']
  | .rootDir :: rest => '/' :: joinSlash (rest.map compChars)
  | comps => joinSlash (comps.map compChars)

/-- Rust `Path::file_name` (Unix): the final component when it is a normal
component, and `None` when the path ends in `..`, `.`, a root, or is empty. -/
def fileNameChars (cs : List Char) : Option (List Char) :=
  match (pathComponents cs).getLast? with
  | some (.normal n) => some n
  | _ => none

/-- Split a name around its last `'.'`: `some (before, after)` when a dot
exists, `none` otherwise. -/
def splitLastDot : List Char → Option (List Char × List Char)
  | [] => none
  | c :: rest =>
    match splitLastDot rest with
    | some (b, a) => some (c :: b, a)
    | none => if c = '.' then some ([], rest) else none

/-- The stem of a file name, as Rust computes it: the part before the last
dot, except that a dot in the first position does not begin an extension
(`".bashrc"` is its own stem). -/
def stemOfName (name : List Char) : List Char :=
  match splitLastDot name with
  | none => name
  | some ([], _) => name
  | some (before, _) => before

/-- Rust `Path::file_stem` (Unix, UTF-8 text). -/
def stemChars (cs : List Char) : Option (List Char) :=
  (fileNameChars cs).map stemOfName

/-- Rust `Path::parent` (Unix): drop the final component; `None` when the path
is empty or terminates in a root. -/
def parentChars (cs : List Char) : Option (List Char) :=
  match pathComponents cs with
  | [] => none
  | comps =>
    match comps.getLast? with
    | some .rootDir => none
    | some _ => some (renderComps comps.dropLast)
    | none => none

/-- Rust `PathBuf::push` / `Path::join` (Unix): an absolute argument replaces
the base; otherwise a separator is inserted unless the base is empty or
already ends in one. -/
def pushChars (base p : List Char) : List Char :=
  if p.head? = some '/' then p
  else if base = [] then p
  else if base.getLast? = some '/' then base ++ p
  else base ++ '/' :: p

/-- `generate_output_path` from `src/main.rs`, at the character-list level.
`none` models the `panic` of the unwrap on `file_stem` (`to_str` cannot fail
here: the model works on Unicode text throughout, and the claims restrict
attention to UTF-8-representable paths). -/
def generate_output_path_chars (cs : List Char) : Option (List Char) :=
  let parent := (parentChars cs).getD ['.']
  match stemChars cs with
  | none => none
  | some stem => some (pushChars parent (stem ++ ("_telegram.mp4").toList))

/-- `generate_output_path` from `src/main.rs`: derive the output path from the
input path.  A `none` result models the Rust panic on a path with no file
stem. -/
def generate_output_path (input : String) : Option String :=
  (generate_output_path_chars input.toList).map String.mk

/-! ## The specified derivation (claim C1)

The spec describes the derived output path textually:
`<parent-directory>/<stem>_telegram.mp4`, where the parent directory is the
text before the final separator (no directory part when the input contains no
separator, in which case the result is relative to the current directory) and
the stem is the filename with only its final extension removed. -/

/-- The derivation exactly as the spec words it, by splitting the input text
at its final separator.  (Definition written from the spec, for comparison
with `generate_output_path` which is written from the source.) -/
def specDerivedChars (cs : List Char) : List Char :=
  let pieces := splitSlash cs
  let name := (pieces.getLast?).getD []
  let stem := stemOfName name
  if pieces.length = 1 then stem ++ ("_telegram.mp4").toList
  else joinSlash pieces.dropLast ++ '/' :: (stem ++ ("_telegram.mp4").toList)

/-- String-level wrapper of `specDerivedChars`. -/
def specDerivedPath (s : String) : String :=
  String.mk (specDerivedChars s.toList)

/-- Paths on which the textual reading of the spec and Rust's component-based
path algebra coincide: the final separator-piece is a genuine file name
(nonempty, not `.` and not `..`, so the code does not panic), and no later
piece is empty or `.` (i.e. no doubled or trailing separator and no interior
`/./`, which Rust's path normalisation would collapse). -/
def CleanPieces (pieces : List (List Char)) : Prop :=
  (∀ p ∈ pieces.tail, p ≠ [] ∧ p ≠ ['.']) ∧
  (pieces.getLast?).getD [] ≠ [] ∧
  (pieces.getLast?).getD [] ≠ ['.'] ∧
  (pieces.getLast?).getD [] ≠ ['.', '.']

instance (pieces : List (List Char)) : Decidable (CleanPieces pieces) := by
  unfold CleanPieces; infer_instance

/-- `CleanPieces`, read off the input string. -/
def CleanPath (s : String) : Prop :=
  CleanPieces (splitSlash s.toList)

instance (s : String) : Decidable (CleanPath s) := by
  unfold CleanPath; infer_instance

theorem compChars_pieceToComp (p : List Char) : compChars (pieceToComp p) = p := by
  unfold pieceToComp
  split
  · rename_i h; simp [compChars, h]
  · simp [compChars]

theorem splitLastDot_eq (cs : List Char) (b a : List Char)
    (hsp : splitLastDot cs = some (b, a)) : cs = b ++ '.' :: a := by
  induction cs generalizing b a with
  | nil => simp [splitLastDot] at hsp
  | cons x rest ih =>
    rw [splitLastDot] at hsp
    cases hrec : splitLastDot rest with
    | some pa =>
      obtain ⟨bb, aa⟩ := pa
      simp only [hrec, Option.some.injEq, Prod.mk.injEq] at hsp
      obtain ⟨hb, ha⟩ := hsp
      subst ha
      rw [← hb, List.cons_append]
      congr 1
      exact ih bb aa hrec
    | none =>
      simp only [hrec] at hsp
      split at hsp
      · rename_i hx
        rw [Option.some.injEq, Prod.mk.injEq] at hsp
        obtain ⟨hb, ha⟩ := hsp
        subst hx
        rw [← hb, ← ha]
        simp
      · simp at hsp

theorem stemOfName_mem {c : Char} {name : List Char}
    (h : c ∈ stemOfName name) : c ∈ name := by
  unfold stemOfName at h
  cases hsp : splitLastDot name with
  | none =>
    simp only [hsp] at h
    exact h
  | some pa =>
    obtain ⟨b, a⟩ := pa
    cases b with
    | nil =>
      simp only [hsp] at h
      exact h
    | cons y ys =>
      simp only [hsp] at h
      rw [splitLastDot_eq name (y :: ys) a hsp]
      exact List.mem_append_left _ h



theorem pushChars_nil_base (p : List Char) : pushChars [] p = p := by
  unfold pushChars
  split
  · rfl
  · simp

theorem pushChars_sep (base p : List Char) (hb : base ≠ [])
    (hbl : base.getLast? ≠ some '/') (hp : p.head? ≠ some '/') :
    pushChars base p = base ++ '/' :: p := by
  unfold pushChars
  rw [if_neg hp, if_neg hb, if_neg hbl]

theorem map_pieceToComp_compChars (l : List (List Char)) :
    (l.map pieceToComp).map compChars = l := by
  rw [List.map_map]
  exact List.map_id'' (fun p => compChars_pieceToComp p) l

theorem filter_clean (l : List (List Char)) (h : ∀ p ∈ l, p ≠ [] ∧ p ≠ ['.']) :
    (l.filter fun p => decide (p ≠ [] ∧ p ≠ ['.'])) = l :=
  List.filter_eq_self.mpr (fun a ha => decide_eq_true (h a ha))

theorem renderComps_rootDir (rest : List PathComp) :
    renderComps (.rootDir :: rest) = '/' :: joinSlash (rest.map compChars) := by
  cases rest <;> rfl

theorem renderComps_not_root (fc : PathComp) (rest : List PathComp)
    (h : fc ≠ .rootDir) :
    renderComps (fc :: rest) = joinSlash ((fc :: rest).map compChars) := by
  cases fc with
  | rootDir => exact absurd rfl h
  | curDir => rfl
  | parentDir => rfl
  | normal n => rfl

/-- A slash-join of pieces that are nonempty and slash-free is nonempty and
does not end in a separator. -/
theorem joinSlash_good (ps : List (List Char)) (hne : ps ≠ [])
    (hp : ∀ p ∈ ps, p ≠ [] ∧ '/' ∉ p) :
    joinSlash ps ≠ [] ∧ (joinSlash ps).getLast? ≠ some '/' := by
  rcases List.eq_nil_or_concat ps with h | ⟨es, q, h⟩
  · exact absurd h hne
  · rw [List.concat_eq_append] at h
    subst h
    have hq : q ∈ es ++ [q] := List.mem_append_right _ (List.mem_singleton_self q)
    obtain ⟨hqne, hqs⟩ := hp q hq
    have hlast := joinSlash_getLast? es q hqne
    obtain ⟨x, hx⟩ := Option.isSome_iff_exists.mp (List.getLast?_isSome.mpr hqne)
    rw [hx] at hlast
    constructor
    · intro hnil
      rw [hnil] at hlast
      simp at hlast
    · rw [hlast]
      intro hcontr
      rw [Option.some.injEq] at hcontr
      subst hcontr
      exact hqs (List.mem_of_mem_getLast? (hx ▸ rfl))

theorem stem_append_head (stem : List Char) (hs : '/' ∉ stem) :
    (stem ++ ("_telegram.mp4").toList).head? ≠ some '/' := by
  cases stem with
  | nil => decide
  | cons c cst =>
    simp only [List.cons_append, List.head?_cons, ne_eq, Option.some.injEq]
    intro hc
    exact hs (hc ▸ List.mem_cons_self c cst)

/-- Core refinement: on clean paths, the code's derivation
(`generate_output_path`, built from Rust's path algebra) produces exactly the
path the spec describes textually (`specDerivedChars`). -/
theorem generate_eq_spec_chars (cs : List Char) (h : CleanPieces (splitSlash cs)) :
    generate_output_path_chars cs = some (specDerivedChars cs) := by
  obtain ⟨htail, hL1, hL2, hL3⟩ := h
  have hcs : cs ≠ [] := by
    intro hnil
    rw [hnil] at hL1
    simp [splitSlash] at hL1
  cases hpieces : splitSlash cs with
  | nil => exact absurd hpieces (splitSlash_ne_nil cs)
  | cons first rest =>
    rw [hpieces] at htail hL1 hL2 hL3
    simp only [List.tail_cons] at htail
    have hnoslash : ∀ p ∈ first :: rest, '/' ∉ p := hpieces ▸ not_slash_mem_splitSlash cs
    rcases List.eq_nil_or_concat rest with hre | ⟨ds, L, hds⟩
    · -- a single piece: no separator in the input at all
      subst hre
      simp only [List.getLast?_singleton, Option.getD_some] at hL1 hL2 hL3
      have hcomps : pathComponents cs = [.normal first] := by
        rw [pathComponents, if_neg hcs, hpieces, compsOfPieces]
        simp [hL1, hL2, hL3]
      have hstem : stemChars cs = some (stemOfName first) := by
        simp [stemChars, fileNameChars, hcomps]
      have hpar : parentChars cs = some [] := by
        simp [parentChars, hcomps, renderComps]
      rw [generate_output_path_chars]
      simp only [hstem, hpar, Option.getD_some]
      rw [pushChars_nil_base]
      simp [specDerivedChars, hpieces]
    · -- at least one separator: rest = ds ++ [L]
      rw [List.concat_eq_append] at hds
      subst hds
      have hsplit : first :: (ds ++ [L]) = (first :: ds) ++ [L] := by
        rw [List.cons_append]
      rw [hsplit, List.getLast?_concat, Option.getD_some] at hL1 hL2 hL3
      have hLmem : L ∈ first :: (ds ++ [L]) :=
        List.mem_cons_of_mem _ (List.mem_append_right _ (List.mem_singleton_self L))
      have hLnoslash : '/' ∉ L := hnoslash L hLmem
      have hLpc : pieceToComp L = .normal L := by
        unfold pieceToComp
        rw [if_neg hL3]
      have hmapsplit : (ds ++ [L]).map pieceToComp =
          ds.map pieceToComp ++ [PathComp.normal L] := by
        rw [List.map_append, List.map_singleton, hLpc]
      have hfc : ∃ fc, pathComponents cs = fc :: (ds.map pieceToComp ++ [.normal L]) ∧
          ((first = [] ∧ fc = .rootDir) ∨
           (first ≠ [] ∧ compChars fc = first ∧ fc ≠ .rootDir)) := by
        rw [pathComponents, if_neg hcs, hpieces, compsOfPieces]
        simp only [filter_clean _ htail, hmapsplit]
        by_cases h1 : first = []
        · exact ⟨.rootDir, by rw [if_pos h1], Or.inl ⟨h1, rfl⟩⟩
        · rw [if_neg h1]
          by_cases h2 : first = ['.']
          · exact ⟨.curDir, by rw [if_pos h2],
              Or.inr ⟨h1, by simp [compChars, h2], by simp⟩⟩
          · rw [if_neg h2]
            by_cases h3 : first = ['.', '.']
            · exact ⟨.parentDir, by rw [if_pos h3],
                Or.inr ⟨h1, by simp [compChars, h3], by simp⟩⟩
            · exact ⟨.normal first, by rw [if_neg h3],
                Or.inr ⟨h1, rfl, by simp⟩⟩
      obtain ⟨fc, hcomps, hfccase⟩ := hfc
      have hgetlast : (fc :: (ds.map pieceToComp ++ [PathComp.normal L])).getLast?
          = some (.normal L) := by
        rw [← List.cons_append, List.getLast?_concat]
      have hstem : stemChars cs = some (stemOfName L) := by
        rw [stemChars, fileNameChars, hcomps, hgetlast]
        rfl
      have hdrop : (fc :: (ds.map pieceToComp ++ [PathComp.normal L])).dropLast
          = fc :: ds.map pieceToComp := by
        rw [← List.cons_append, List.dropLast_concat]
      have hpar : parentChars cs = some (renderComps (fc :: ds.map pieceToComp)) := by
        rw [parentChars, hcomps]
        simp only [hgetlast, hdrop]
      have hstemslash : '/' ∉ stemOfName L := fun hm => hLnoslash (stemOfName_mem hm)
      have hphead := stem_append_head (stemOfName L) hstemslash
      have hspec : specDerivedChars cs =
          joinSlash ((first :: (ds ++ [L])).dropLast) ++
            '/' :: (stemOfName L ++ ("_telegram.mp4").toList) := by
        rw [specDerivedChars]
        simp only [hpieces]
        rw [if_neg (by simp), hsplit, List.getLast?_concat, Option.getD_some]
      have hdrop2 : (first :: (ds ++ [L])).dropLast = first :: ds := by
        rw [hsplit, List.dropLast_concat]
      rw [generate_output_path_chars]
      simp only [hstem, hpar, Option.getD_some]
      rcases hfccase with ⟨hfirst, hfceq⟩ | ⟨hfirst, hfcchars, hfcne⟩
      · -- absolute path: the input starts with the root separator
        subst hfceq
        rw [renderComps_rootDir, map_pieceToComp_compChars]
        cases hdsnil : ds with
        | nil =>
          subst hdsnil
          rw [joinSlash]
          have : pushChars ['/'] (stemOfName L ++ ("_telegram.mp4").toList) =
              ['/'] ++ (stemOfName L ++ ("_telegram.mp4").toList) := by
            unfold pushChars
            rw [if_neg hphead, if_neg (by simp), if_pos (by simp)]
          rw [this, hspec, hdrop2, hfirst]
          simp [joinSlash]
        | cons e es =>
          rw [← hdsnil]
          have hdsgood : ∀ p ∈ ds, p ≠ [] ∧ '/' ∉ p := by
            intro p hp
            refine ⟨(htail p (List.mem_append_left _ hp)).1, ?_⟩
            exact hnoslash p (List.mem_cons_of_mem _ (List.mem_append_left _ hp))
          have hds_ne : ds ≠ [] := by rw [hdsnil]; simp
          obtain ⟨hjne, hjlast⟩ := joinSlash_good ds hds_ne hdsgood
          have hbase_last : ('/' :: joinSlash ds).getLast? ≠ some '/' := by
            rw [List.getLast?_cons]
            obtain ⟨x, hx⟩ := Option.isSome_iff_exists.mp (List.getLast?_isSome.mpr hjne)
            rw [hx]
            simpa [hx] using hjlast
          rw [pushChars_sep _ _ (by simp) hbase_last hphead, hspec, hdrop2, hfirst]
          rw [joinSlash_cons, if_neg hds_ne]
          simp
      · -- relative path with at least one separator
        rw [renderComps_not_root fc _ hfcne, List.map_cons, hfcchars,
          map_pieceToComp_compChars]
        have hgood : ∀ p ∈ first :: ds, p ≠ [] ∧ '/' ∉ p := by
          intro p hp
          rcases List.mem_cons.mp hp with hp | hp
          · exact ⟨hp ▸ hfirst, hp ▸ hnoslash first (List.mem_cons_self _ _)⟩
          · refine ⟨(htail p (List.mem_append_left _ hp)).1, ?_⟩
            exact hnoslash p (List.mem_cons_of_mem _ (List.mem_append_left _ hp))
        obtain ⟨hjne, hjlast⟩ := joinSlash_good (first :: ds) (by simp) hgood
        rw [pushChars_sep _ _ hjne hjlast hphead, hspec, hdrop2]

/-! ## The configuration record and the assembled encoder parameter list -/

/-- The parsed command-line configuration (`struct Args` in `src/main.rs`).
The numeric fields are Rust `u32` values, modelled as `Nat`; theorems that
depend on the 32-bit range carry it as a hypothesis. -/
structure Args where
  input : String
  output : Option String
  bitrate : Nat
  audio_bitrate : Nat
  fps : Nat
  crf : Nat
  overwrite : Bool
  verbose : Bool
deriving DecidableEq

/-- The `ffmpeg` argument list assembled in `main`, in source order: input,
conditional overwrite flag, video settings, audio settings, container
directives and output path, and log-level suppression when not verbose.
`args.bitrate * 2` is `u32` arithmetic: in a release build it wraps modulo
`2^32` (a debug build would abort on overflow instead; either way the
doubling is exact only below `2^31`). -/
def build_ffmpeg_args (a : Args) (output_path : String) : List String :=
  ["-i", a.input]
  ++ (if a.overwrite then ["-y"] else [])
  ++ ["-c:v", "libx264", "-profile:v", "baseline", "-level", "3.0",
      "-pix_fmt", "yuv420p", "-crf", toString a.crf,
      "-maxrate", toString a.bitrate ++ "k",
      "-bufsize", toString (a.bitrate * 2 % 2 ^ 32) ++ "k",
      "-r", toString a.fps]
  ++ ["-c:a", "aac", "-ar", "44100", "-ac", "2",
      "-b:a", toString a.audio_bitrate ++ "k"]
  ++ ["-movflags", "+faststart", "-f", "mp4", output_path]
  ++ (if a.verbose then [] else ["-loglevel", "error"])

/-! ## Byte-size formatting (`format_bytes`)

The Rust function converts the `u64` to `f64` and repeatedly divides by
`1024.0` while `size >= 1024.0 && unit_index < UNITS.len() - 1`.  Dividing an
IEEE double by `1024 = 2^10` only decrements the exponent, so every division
is exact, and the comparison `size >= 1024.0` after `k` divisions holds
exactly when `1024 ^ (k+1) <= bytes` (the thresholds `2^10`, `2^20`, `2^30`
are all exactly representable and the `u64 → f64` rounding is monotone and
fixes every value below `2^53`, so it cannot move a value across them).
`{:.1}` prints the value rounded to one decimal; a tie (`x.x5`) would need
the binary rational `bytes / 2^(10k)` to have denominator 20, which is
impossible, so plain half-even rounding of the exact value is faithful for
every input below `2^53` and for the unit choice everywhere. -/

/-- Round `a / b` to the nearest natural, ties to even (the rounding IEEE
formatting uses; ties never occur at the call sites below). -/
def roundHalfEven (a b : Nat) : Nat :=
  let q := a / b
  let r := a % b
  if 2 * r < b then q
  else if b < 2 * r then q + 1
  else if q % 2 = 0 then q else q + 1

/-- The unit table of `format_bytes`. -/
def UNITS : List String := ["B", "KB", "MB", "GB"]

/-- The `while` loop of `format_bytes`: starting from `unit_index = idx`,
keep dividing while the scaled size is at least 1024 and the index can still
grow.  `size >= 1024.0` at index `i` is `1024 ^ (i+1) <= bytes`. -/
def scaleLoop : Nat → Nat → Nat → Nat
  | 0, _, idx => idx
  | fuel + 1, bytes, idx =>
    if 1024 ^ (idx + 1) ≤ bytes ∧ idx < 3 then scaleLoop fuel bytes (idx + 1)
    else idx

/-- The final `unit_index` of `format_bytes`.  Three fuel steps suffice: the
guard `unit_index < UNITS.len() - 1 = 3` stops the loop after at most three
increments from 0. -/
def unit_index (bytes : Nat) : Nat := scaleLoop 3 bytes 0

/-- `format_bytes` from `src/main.rs`: scale by 1024 into B/KB/MB/GB and
print with one decimal place. -/
def format_bytes (bytes : Nat) : String :=
  let ui := unit_index bytes
  let n10 := roundHalfEven (bytes * 10) (1024 ^ ui)
  toString (n10 / 10) ++ "." ++ toString (n10 % 10) ++ " " ++ UNITS.getD ui ""

/-- The size-ratio figure `(output_size as f64 / input_size as f64) * 100.0`
printed with `{:.1}` (the trailing `%` is added at the print site).  Modelled
by exact rational rounding; the unguarded `input_size = 0` case (noted as an
open question in the spec) is the one place this differs textually from the
IEEE quotient (`inf`/`nan`), and no claim touches it. -/
def format_ratio (output_size input_size : Nat) : String :=
  let n10 := roundHalfEven (output_size * 1000) input_size
  toString (n10 / 10) ++ "." ++ toString (n10 % 10)

/-! ## The effectful control flow of `main`

`main` is modelled as a pure function from the configuration and an abstract
environment (what the filesystem and the external tool would do) to a trace
of observable events together with the process exit code.  `exitCode = none`
models a Rust panic (the only one reachable is the `unwrap` inside
`generate_output_path`). -/

/-- One observable side effect of the process. -/
inductive Event where
  | probeFfmpeg
  | outPrint (line : String)
  | errPrint (line : String)
  | runEncoder (args : List String)
deriving DecidableEq

/-- Result of `Command::status()` for the conversion: the child could not be
launched (with an OS error message), or it ran and exited.  `code = some c`
is a normal exit with code `c`; `code = none` is termination by signal
(`ExitStatus::code()` returns `None`); `success()` holds exactly for
`some 0`. -/
inductive RunOutcome where
  | launchFailure (osError : String)
  | exited (code : Option Int)
deriving DecidableEq

/-- The environment a run interacts with: which paths exist, whether the
`ffmpeg -version` probe succeeds, what the conversion child process does, the
readable file sizes, and the elapsed-time figure the clock produces (wall
time is outside the model, so its two-decimal rendering enters as an opaque
string). -/
structure Env where
  pathExists : String → Bool
  ffmpegOk : Bool
  runOutcome : List String → RunOutcome
  fileSize : String → Option Nat
  elapsed : String

/-- Events emitted plus the process exit code; `exitCode = none` is a panic. -/
structure RunResult where
  events : List Event
  exitCode : Option Nat
deriving DecidableEq

/-- `is_ffmpeg_available` from `src/main.rs` (the probe event itself is
recorded by `main_run`). -/
def is_ffmpeg_available (env : Env) : Bool := env.ffmpegOk

/-- `args.output.unwrap_or_else(|| generate_output_path(&args.input))`. -/
def resolve_output (a : Args) : Option String :=
  match a.output with
  | some o => some o
  | none => generate_output_path a.input

def msg_input_not_found (input : String) : String :=
  "Error: File \x27" ++ input ++ "\x27 not found"

def msg_no_ffmpeg : String := "Error: ffmpeg is not installed or not in PATH"

def msg_output_exists (out : String) : String :=
  "Error: Output file \x27" ++ out ++ "\x27 already exists. Use -y to overwrite."

def msg_converting (input : String) : String :=
  "Converting \x27" ++ input ++ "\x27 for Telegram compatibility..."

def msg_output (out : String) : String := "Output: \x27" ++ out ++ "\x27"

def msg_settings (a : Args) : String :=
  "Settings: " ++ toString a.bitrate ++ "kbps video, " ++
    toString a.audio_bitrate ++ "kbps audio, " ++ toString a.fps ++
    "fps, CRF " ++ toString a.crf

def msg_success (out : String) : String := "✓ Conversion successful: " ++ out

def msg_time (elapsed : String) : String := "  Time taken: " ++ elapsed ++ "s"

/-- Rust `{:?}` on the `Option<i32>` exit code. -/
def debugOptInt : Option Int → String
  | none => "None"
  | some i => "Some(" ++ toString i ++ ")"

def msg_encoding_failed (code : Option Int) : String :=
  "✗ Conversion failed with exit code: " ++ debugOptInt code

def msg_launch_failed (osError : String) : String :=
  "✗ Failed to execute ffmpeg: " ++ osError

/-- The size block printed on success when, and only when, the metadata of
both files is readable (`if let (Ok(..), Ok(..)) = ...`). -/
def sizeReport (env : Env) (input out : String) : List Event :=
  match env.fileSize input, env.fileSize out with
  | some input_size, some output_size =>
    [.outPrint ("  Input size: " ++ format_bytes input_size),
     .outPrint ("  Output size: " ++ format_bytes output_size),
     .outPrint ("  Size ratio: " ++ format_ratio output_size input_size ++ "%")]
  | _, _ => []

/-- The whole of `main`, step for step: input-existence check, availability
probe, output resolution, overwrite check, banner prints, encoder run, and
outcome reporting. -/
def main_run (a : Args) (env : Env) : RunResult :=
  if env.pathExists a.input = false then
    { events := [.errPrint (msg_input_not_found a.input)], exitCode := some 1 }
  else if is_ffmpeg_available env = false then
    { events := [.probeFfmpeg, .errPrint msg_no_ffmpeg], exitCode := some 1 }
  else
    match resolve_output a with
    | none => { events := [.probeFfmpeg], exitCode := none }
    | some output_path =>
      if env.pathExists output_path && !a.overwrite then
        { events := [.probeFfmpeg, .errPrint (msg_output_exists output_path)],
          exitCode := some 1 }
      else
        let ffArgs := build_ffmpeg_args a output_path
        let pre : List Event :=
          [.probeFfmpeg,
           .outPrint (msg_converting a.input),
           .outPrint (msg_output output_path),
           .outPrint (msg_settings a),
           .runEncoder ffArgs]
        match env.runOutcome ffArgs with
        | .launchFailure e =>
          { events := pre ++ [.errPrint (msg_launch_failed e)], exitCode := some 1 }
        | .exited code =>
          if code = some 0 then
            { events := pre ++ [.outPrint (msg_success output_path),
                .outPrint (msg_time env.elapsed)] ++ sizeReport env a.input output_path,
              exitCode := some 0 }
          else
            { events := pre ++ [.errPrint (msg_encoding_failed code)],
              exitCode := some 1 }

/-! ## Claim theorems -/

/-- C1: for every input path with no explicit output override (restricted to
the clean paths of `CleanPath`, on which Rust's component normalisation is
the identity and the derivation does not panic), the derived output path is
exactly `<parent-directory>/<stem>_telegram.mp4` as the spec words it, the
parent defaulting to the current directory when the input has none; the
derivation is a pure function (deterministic, no I/O) by construction. -/
theorem C1_derived_output_path (s : String) (h : CleanPath s) :
    generate_output_path s = some (specDerivedPath s) := by
  rw [generate_output_path, generate_eq_spec_chars s.toList h]
  rfl

/-- Witness for C1 at the spec's own example `videos/a.b.mp4` (stem takes
only the final extension off). -/
theorem C1_derived_output_path_witness :
    CleanPath "videos/a.b.mp4" ∧
    generate_output_path "videos/a.b.mp4" = some "videos/a.b_telegram.mp4" ∧
    generate_output_path "clip.mov" = some "clip_telegram.mp4" := by
  refine ⟨by decide, ?_, ?_⟩
  · rw [C1_derived_output_path "videos/a.b.mp4" (by decide)]
    decide
  · rw [C1_derived_output_path "clip.mov" (by decide)]
    decide

/-- C8: the concrete byte-size formattings the spec lists. -/
theorem C8_format_bytes_examples :
    format_bytes 500 = "500.0 B" ∧ format_bytes 2048 = "2.0 KB" ∧
    format_bytes 1572864 = "1.5 MB" ∧ format_bytes 1073741824 = "1.0 GB" := by
  refine ⟨?_, ?_, ?_, ?_⟩ <;> decide

/-- C9: `generate_output_path` is partial: it panics (modelled `none`) on
inputs whose final component has no file stem, such as `..` and `/`, and
returns a path whenever the file stem exists (the claims restrict attention
to UTF-8-representable text, which is all this model contains, so the
`to_str` unwraps cannot fail). -/
theorem C9_generate_output_path_partial :
    generate_output_path ".." = none ∧ generate_output_path "/" = none ∧
    ∀ (s : String) (st : List Char), stemChars s.toList = some st →
      (generate_output_path s).isSome = true := by
  refine ⟨by decide, by decide, ?_⟩
  intro s st h
  have h' : stemChars s.data = some st := h
  rw [generate_output_path, generate_output_path_chars]
  simp [h']

/-- Witness for C9's hypothesis-carrying part at `a.mov`. -/
theorem C9_generate_output_path_partial_witness :
    stemChars ("a.mov").toList = some ['a'] ∧
    (generate_output_path "a.mov").isSome = true :=
  ⟨by decide, C9_generate_output_path_partial.2.2 "a.mov" ['a'] (by decide)⟩

theorem scaleLoop_s3 (n : Nat) :
    scaleLoop 3 n 0 = if 1024 ^ (0 + 1) ≤ n ∧ 0 < 3 then scaleLoop 2 n 1 else 0 := rfl

theorem scaleLoop_s2 (n : Nat) :
    scaleLoop 2 n 1 = if 1024 ^ (1 + 1) ≤ n ∧ 1 < 3 then scaleLoop 1 n 2 else 1 := rfl

theorem scaleLoop_s1 (n : Nat) :
    scaleLoop 1 n 2 = if 1024 ^ (2 + 1) ≤ n ∧ 2 < 3 then scaleLoop 0 n 3 else 2 := rfl

theorem scaleLoop_s0 (n : Nat) : scaleLoop 0 n 3 = 3 := rfl

/-- Closed form of the scaling loop's final unit index. -/
theorem unit_index_eq (n : Nat) :
    unit_index n = if n < 1024 then 0 else if n < 1048576 then 1
      else if n < 1073741824 then 2 else 3 := by
  rw [unit_index, scaleLoop_s3, scaleLoop_s2, scaleLoop_s1, scaleLoop_s0]
  norm_num
  split_ifs <;> omega

/-- C10: every formatted size ends in one of the four units, and the unit
saturates at GB: from `1024^3 = 2^30` bytes on the unit is always `GB`
(`2^40` bytes renders as `1024.0 GB`, not a terabyte unit), i.e. the loop's
unit index never leaves the unit table. -/
theorem C10_format_bytes_unit_range (n : Nat) :
    (∃ s u, u ∈ UNITS ∧ format_bytes n = s ++ " " ++ u) ∧
    (2 ^ 30 ≤ n → ∃ s, format_bytes n = s ++ " GB") ∧
    format_bytes (2 ^ 40) = "1024.0 GB" := by
  refine ⟨?_, ?_, by decide⟩
  · have hmem : UNITS.getD (unit_index n) "" ∈ UNITS := by
      have h := unit_index_eq n
      split_ifs at h <;> rw [h] <;> decide
    exact ⟨toString (roundHalfEven (n * 10) (1024 ^ unit_index n) / 10) ++ "." ++
      toString (roundHalfEven (n * 10) (1024 ^ unit_index n) % 10),
      UNITS.getD (unit_index n) "", hmem, rfl⟩
  · intro hge
    have h30 : (2 : Nat) ^ 30 = 1073741824 := by norm_num
    have hui : unit_index n = 3 := by
      rw [unit_index_eq]
      rw [h30] at hge
      split_ifs <;> omega
    refine ⟨toString (roundHalfEven (n * 10) (1024 ^ unit_index n) / 10) ++ "." ++
      toString (roundHalfEven (n * 10) (1024 ^ unit_index n) % 10), ?_⟩
    have : format_bytes n = toString (roundHalfEven (n * 10) (1024 ^ unit_index n) / 10) ++ "." ++
        toString (roundHalfEven (n * 10) (1024 ^ unit_index n) % 10) ++ " " ++
        UNITS.getD (unit_index n) "" := rfl
    rw [this, hui]
    rw [String.append_assoc]
    rfl

/-- Witness for C10's hypothesis-carrying conjunct at `2^40` bytes. -/
theorem C10_format_bytes_unit_range_witness :
    (2 : Nat) ^ 30 ≤ 2 ^ 40 ∧ ∃ s, format_bytes (2 ^ 40) = s ++ " GB" :=
  ⟨by norm_num, (C10_format_bytes_unit_range (2 ^ 40)).2.1 (by norm_num)⟩

/-- C7: when the input path does not exist, the run consists of exactly one
diagnostic on the error stream (which names the path) and exit code 1 — no
probe, no prints, no child process. -/
theorem C7_input_not_found (a : Args) (env : Env)
    (h : env.pathExists a.input = false) :
    (main_run a env).events = [.errPrint (msg_input_not_found a.input)] ∧
    (main_run a env).exitCode = some 1 ∧
    List.IsInfix a.input.data (msg_input_not_found a.input).data := by
  refine ⟨?_, ?_, ?_⟩
  · rw [main_run, if_pos h]
  · rw [main_run, if_pos h]
  · exact ⟨("Error: File \x27").data, ("\x27 not found").data,
      by simp [msg_input_not_found]⟩

/-- Witness environment: nothing exists on the filesystem. -/
def envNothing : Env :=
  { pathExists := fun _ => false, ffmpegOk := true,
    runOutcome := fun _ => .exited (some 0), fileSize := fun _ => none,
    elapsed := "0.00" }

/-- Default-flag configuration used by the witnesses. -/
def wArgs : Args :=
  { input := "in.mov", output := none, bitrate := 2000, audio_bitrate := 128,
    fps := 25, crf := 23, overwrite := false, verbose := false }

/-- Witness for C7. -/
theorem C7_input_not_found_witness :
    envNothing.pathExists wArgs.input = false ∧
    (main_run wArgs envNothing).events = [.errPrint (msg_input_not_found "in.mov")] ∧
    (main_run wArgs envNothing).exitCode = some 1 ∧
    List.IsInfix ("in.mov").data (msg_input_not_found "in.mov").data :=
  ⟨rfl, C7_input_not_found wArgs envNothing rfl⟩

/-! ### C2: maxrate and bufsize -/

/-- Configuration with bitrate `2^31`, the smallest `u32` on which doubling
wraps. -/
def cexArgs : Args :=
  { input := "in.mov", output := none, bitrate := 2147483648, audio_bitrate := 128,
    fps := 25, crf := 23, overwrite := false, verbose := false }

/-- Counterexample to C2 as frozen: at the `u32` bitrate `2^31` the doubled
buffer size wraps modulo `2^32`, so the assembled list carries `"0k"` after
`"-bufsize"` and the claimed `"4294967296k"` appears nowhere. -/
theorem C2_bufsize_counterexample :
    cexArgs.bitrate = 2 ^ 31 ∧
    "4294967296k" ∉ build_ffmpeg_args cexArgs "out.mp4" ∧
    List.IsInfix ["-bufsize", "0k"] (build_ffmpeg_args cexArgs "out.mp4") :=
  ⟨by decide, by decide, by decide⟩

/-- C2 amended: the assembled list always contains the adjacent run
`-maxrate {b}k -bufsize {b*2 mod 2^32}k`, and below `2^31` the buffer size is
exactly twice the configured video bitrate. -/
theorem C2_bufsize_double (a : Args) (out : String) :
    List.IsInfix ["-maxrate", toString a.bitrate ++ "k",
      "-bufsize", toString (a.bitrate * 2 % 2 ^ 32) ++ "k"] (build_ffmpeg_args a out) ∧
    (a.bitrate < 2 ^ 31 →
      toString (a.bitrate * 2 % 2 ^ 32) ++ "k" = toString (2 * a.bitrate) ++ "k") := by
  constructor
  · refine ⟨["-i", a.input] ++ (if a.overwrite then ["-y"] else []) ++
      ["-c:v", "libx264", "-profile:v", "baseline", "-level", "3.0",
       "-pix_fmt", "yuv420p", "-crf", toString a.crf],
      ["-r", toString a.fps] ++
      ["-c:a", "aac", "-ar", "44100", "-ac", "2",
       "-b:a", toString a.audio_bitrate ++ "k"] ++
      ["-movflags", "+faststart", "-f", "mp4", out] ++
      (if a.verbose then [] else ["-loglevel", "error"]), ?_⟩
    rw [build_ffmpeg_args]
    simp
  · intro h
    have : a.bitrate * 2 % 2 ^ 32 = 2 * a.bitrate := by omega
    rw [this]

/-- Witness for C2's amended claim at the default bitrate 2000:
maxrate `2000k`, bufsize `4000k`. -/
theorem C2_bufsize_double_witness :
    (2000 : Nat) < 2 ^ 31 ∧
    List.IsInfix ["-maxrate", "2000k", "-bufsize", "4000k"]
      (build_ffmpeg_args wArgs "out.mp4") ∧
    toString (2000 * 2 % 2 ^ 32) ++ "k" = toString (2 * 2000) ++ "k" := by
  have h := C2_bufsize_double wArgs "out.mp4"
  exact ⟨by decide, h.1, h.2 (by decide)⟩

/-! ### C4: the forced-overwrite flag

`"-y"` can only enter the argument list through the overwrite conditional:
every fixed string differs from it, the rendered numerals consist of digits,
and the `{..}k` strings end in `k`. -/

theorem digitChar_isDigit (m : Nat) (h : m < 10) : (Nat.digitChar m).isDigit = true := by
  interval_cases m <;> decide

theorem toDigitsCore_digits (fuel n : Nat) (ds : List Char)
    (hds : ∀ c ∈ ds, c.isDigit = true) :
    ∀ c ∈ Nat.toDigitsCore 10 fuel n ds, c.isDigit = true := by
  induction fuel generalizing n ds with
  | zero => simpa [Nat.toDigitsCore] using hds
  | succ fuel ih =>
    intro c hc
    rw [Nat.toDigitsCore] at hc
    have hstep : ∀ c ∈ Nat.digitChar (n % 10) :: ds, c.isDigit = true := by
      intro x hx
      rcases List.mem_cons.mp hx with hx | hx
      · subst hx
        exact digitChar_isDigit _ (Nat.mod_lt _ (by norm_num))
      · exact hds x hx
    split at hc
    · exact hstep c hc
    · exact ih (n / 10) _ hstep c hc

theorem natToString_all_digits (n : Nat) :
    ∀ c ∈ (toString n).data, c.isDigit = true := by
  intro c hc
  exact toDigitsCore_digits (n + 1) n [] (by simp) c hc

theorem natToString_ne_dashy (n : Nat) : toString n ≠ "-y" := by
  intro h
  have hd : (toString n).data = ("-y").data := congrArg String.data h
  have hmem : ('-' : Char) ∈ (toString n).data := by
    rw [hd]
    decide
  have := natToString_all_digits n '-' hmem
  simp at this

theorem append_k_ne_dashy (s : String) : s ++ "k" ≠ "-y" := by
  intro h
  have hd : (s ++ "k").data = ("-y").data := congrArg String.data h
  rw [String.data_append] at hd
  have hlast := congrArg List.getLast? hd
  rw [show ("k" : String).data = ['k'] from rfl, List.getLast?_concat] at hlast
  simp at hlast

/-- C4: the forced-overwrite flag `-y` occupies its slot in the assembled
parameter list exactly when the overwrite flag is set; as a plain string it
is a member of the list exactly when overwrite is set, provided neither the
input nor the output path is the literal string `-y`; and when the resolved
output exists and overwrite is true, the encoder is invoked with that
parameter list (so with the flag present). -/
theorem C4_overwrite_flag :
    (∀ (a : Args) (out : String),
      ((build_ffmpeg_args a out)[2]? = some "-y" ↔ a.overwrite = true)) ∧
    (∀ (a : Args) (out : String), a.input ≠ "-y" → out ≠ "-y" →
      ("-y" ∈ build_ffmpeg_args a out ↔ a.overwrite = true)) ∧
    (∀ (a : Args) (env : Env) (out : String),
      env.pathExists a.input = true → env.ffmpegOk = true →
      resolve_output a = some out → env.pathExists out = true → a.overwrite = true →
      Event.runEncoder (build_ffmpeg_args a out) ∈ (main_run a env).events ∧
      "-y" ∈ build_ffmpeg_args a out) := by
  refine ⟨?_, ?_, ?_⟩
  · intro a out
    cases hov : a.overwrite <;> simp [build_ffmpeg_args, hov]
  · intro a out hinp houtp
    cases hov : a.overwrite with
    | true =>
      simp only [iff_true]
      simp [build_ffmpeg_args, hov]
    | false =>
      simp only [Bool.false_eq_true, iff_false]
      intro hmem
      have hcrf := Ne.symm (natToString_ne_dashy a.crf)
      have hfps := Ne.symm (natToString_ne_dashy a.fps)
      have hbr := Ne.symm (append_k_ne_dashy (toString a.bitrate))
      have hbuf := Ne.symm (append_k_ne_dashy (toString (a.bitrate * 2 % 4294967296)))
      have hab := Ne.symm (append_k_ne_dashy (toString a.audio_bitrate))
      cases hv : a.verbose <;>
        simp [build_ffmpeg_args, hov, hv, Ne.symm hinp, Ne.symm houtp,
          hcrf, hfps, hbr, hbuf, hab] at hmem
  · intro a env out hin hff hres hex hov
    have hcheck : (env.pathExists out && !a.overwrite) = false := by
      rw [hex, hov]
      rfl
    have hmain : (main_run a env).events =
        [.probeFfmpeg, .outPrint (msg_converting a.input), .outPrint (msg_output out),
         .outPrint (msg_settings a), .runEncoder (build_ffmpeg_args a out)] ++
          ([.outPrint (msg_success out), .outPrint (msg_time env.elapsed)] ++
            sizeReport env a.input out) ∨
        (main_run a env).events =
        [.probeFfmpeg, .outPrint (msg_converting a.input), .outPrint (msg_output out),
         .outPrint (msg_settings a), .runEncoder (build_ffmpeg_args a out)] ++
          [.errPrint (msg_launch_failed
            (match env.runOutcome (build_ffmpeg_args a out) with
             | .launchFailure e => e
             | .exited _ => ""))] ∨
        (main_run a env).events =
        [.probeFfmpeg, .outPrint (msg_converting a.input), .outPrint (msg_output out),
         .outPrint (msg_settings a), .runEncoder (build_ffmpeg_args a out)] ++
          [.errPrint (msg_encoding_failed
            (match env.runOutcome (build_ffmpeg_args a out) with
             | .launchFailure _ => none
             | .exited code => code))] := by
      rw [main_run, if_neg (by simp [hin]), if_neg (by simp [is_ffmpeg_available, hff])]
      simp only [hres]
      rw [if_neg (by simp [hcheck])]
      cases hrun : env.runOutcome (build_ffmpeg_args a out) with
      | launchFailure e => right; left; simp [hrun]
      | exited code =>
        by_cases hcode : code = some 0
        · left
          simp [hrun, hcode]
        · right; right
          simp [hrun, hcode]
    constructor
    · rcases hmain with hmain | hmain | hmain <;> rw [hmain] <;> simp
    · simp [build_ffmpeg_args, hov]

/-- `wArgs` with the overwrite flag set. -/
def owArgs : Args := { wArgs with overwrite := true }

/-- Witness for C4: with overwrite set, `-y` sits in its slot and the
encoder is invoked (here on an environment where the resolved output already
exists) with the flag present. -/
theorem C4_overwrite_flag_witness :
    (owArgs.input ≠ "-y" ∧ ("out.mp4" : String) ≠ "-y") ∧
    ("-y" ∈ build_ffmpeg_args owArgs "out.mp4" ↔ owArgs.overwrite = true) ∧
    ((fun _ => true : String → Bool) owArgs.input = true ∧
     resolve_output owArgs = some "in_telegram.mp4" ∧ owArgs.overwrite = true) ∧
    Event.runEncoder (build_ffmpeg_args owArgs "in_telegram.mp4") ∈
      (main_run owArgs
        ⟨fun _ => true, true, fun _ => .exited (some 0), fun _ => none, "0.00"⟩).events ∧
    "-y" ∈ build_ffmpeg_args owArgs "in_telegram.mp4" := by
  have h2 := C4_overwrite_flag.2.1 owArgs "out.mp4" (by decide) (by decide)
  have h3 := C4_overwrite_flag.2.2 owArgs
    ⟨fun _ => true, true, fun _ => .exited (some 0), fun _ => none, "0.00"⟩
    "in_telegram.mp4" rfl rfl (by decide) rfl rfl
  exact ⟨⟨by decide, by decide⟩, h2, ⟨rfl, by decide, rfl⟩, h3.1, h3.2⟩

/-! ### C3, C5, C6: control flow of the checked run -/

/-- C3: when the resolved output path exists and overwrite is false, the run
exits with code 1 after the availability probe (the preflight check itself)
and one diagnostic on the error stream; the encoder is never invoked and
nothing is written to standard output — no observable effect beyond the
read-only preflight occurs before the check passes. -/
theorem C3_output_exists_blocks (a : Args) (env : Env) (out : String)
    (hin : env.pathExists a.input = true) (hff : env.ffmpegOk = true)
    (hres : resolve_output a = some out)
    (hex : env.pathExists out = true) (hov : a.overwrite = false) :
    (main_run a env).exitCode = some 1 ∧
    (main_run a env).events = [.probeFfmpeg, .errPrint (msg_output_exists out)] ∧
    (∀ args, Event.runEncoder args ∉ (main_run a env).events) ∧
    (∀ line, Event.outPrint line ∉ (main_run a env).events) := by
  have hcheck : (env.pathExists out && !a.overwrite) = true := by
    rw [hex, hov]
    rfl
  have hred : main_run a env =
      ⟨[.probeFfmpeg, .errPrint (msg_output_exists out)], some 1⟩ := by
    rw [main_run, if_neg (by simp [hin]), if_neg (by simp [is_ffmpeg_available, hff])]
    simp only [hres]
    rw [if_pos hcheck]
  rw [hred]
  refine ⟨rfl, rfl, ?_, ?_⟩ <;> intro x <;> simp

/-- Environment in which every path exists and everything succeeds. -/
def envAll : Env :=
  { pathExists := fun _ => true, ffmpegOk := true,
    runOutcome := fun _ => .exited (some 0), fileSize := fun _ => none,
    elapsed := "0.00" }

/-- Witness for C3: output `in_telegram.mp4` already exists, overwrite off. -/
theorem C3_output_exists_blocks_witness :
    (envAll.pathExists wArgs.input = true ∧ envAll.ffmpegOk = true ∧
     resolve_output wArgs = some "in_telegram.mp4" ∧
     envAll.pathExists "in_telegram.mp4" = true ∧ wArgs.overwrite = false) ∧
    (main_run wArgs envAll).exitCode = some 1 ∧
    (main_run wArgs envAll).events =
      [.probeFfmpeg, .errPrint (msg_output_exists "in_telegram.mp4")] ∧
    (∀ args, Event.runEncoder args ∉ (main_run wArgs envAll).events) := by
  have h := C3_output_exists_blocks wArgs envAll "in_telegram.mp4" rfl rfl (by decide) rfl rfl
  exact ⟨⟨rfl, rfl, by decide, rfl, rfl⟩, h.1, h.2.1, h.2.2.1⟩

/-- C5: the process runner distinguishes exactly two failure modes — launch
failure (reporting the OS error) and a started tool exiting unsuccessfully
(reporting its exit code, `{:?}`-rendered) — both printing one diagnostic to
the error stream and exiting 1; a completed run that succeeds exits 0. -/
theorem C5_runner_failure_modes (a : Args) (env : Env) (out : String)
    (hin : env.pathExists a.input = true) (hff : env.ffmpegOk = true)
    (hres : resolve_output a = some out)
    (hpass : (env.pathExists out && !a.overwrite) = false) :
    (∀ e, env.runOutcome (build_ffmpeg_args a out) = .launchFailure e →
      (main_run a env).exitCode = some 1 ∧
      Event.errPrint (msg_launch_failed e) ∈ (main_run a env).events) ∧
    (∀ code, env.runOutcome (build_ffmpeg_args a out) = .exited code → code ≠ some 0 →
      (main_run a env).exitCode = some 1 ∧
      Event.errPrint (msg_encoding_failed code) ∈ (main_run a env).events) ∧
    (∀ code, env.runOutcome (build_ffmpeg_args a out) = .exited code → code = some 0 →
      (main_run a env).exitCode = some 0) := by
  refine ⟨?_, ?_, ?_⟩
  · intro e hrun
    rw [main_run, if_neg (by simp [hin]), if_neg (by simp [is_ffmpeg_available, hff])]
    simp only [hres]
    rw [if_neg (by simp [hpass])]
    simp only [hrun]
    simp
  · intro code hrun hcode
    rw [main_run, if_neg (by simp [hin]), if_neg (by simp [is_ffmpeg_available, hff])]
    simp only [hres]
    rw [if_neg (by simp [hpass])]
    simp only [hrun]
    rw [if_neg hcode]
    simp
  · intro code hrun hcode
    subst hcode
    rw [main_run, if_neg (by simp [hin]), if_neg (by simp [is_ffmpeg_available, hff])]
    simp only [hres]
    rw [if_neg (by simp [hpass])]
    simp only [hrun]
    simp

/-- Environment in which only the input file exists and the encoder cannot
be launched. -/
def envLaunchFail : Env :=
  { pathExists := fun p => p == "in.mov", ffmpegOk := true,
    runOutcome := fun _ => .launchFailure "No such file or directory (os error 2)",
    fileSize := fun _ => none, elapsed := "0.00" }

/-- Witness for C5, exercising the launch-failure mode. -/
theorem C5_runner_failure_modes_witness :
    (envLaunchFail.pathExists wArgs.input = true ∧ envLaunchFail.ffmpegOk = true ∧
     resolve_output wArgs = some "in_telegram.mp4" ∧
     (envLaunchFail.pathExists "in_telegram.mp4" && !wArgs.overwrite) = false ∧
     envLaunchFail.runOutcome (build_ffmpeg_args wArgs "in_telegram.mp4") =
       .launchFailure "No such file or directory (os error 2)") ∧
    (main_run wArgs envLaunchFail).exitCode = some 1 ∧
    Event.errPrint (msg_launch_failed "No such file or directory (os error 2)") ∈
      (main_run wArgs envLaunchFail).events := by
  have h := (C5_runner_failure_modes wArgs envLaunchFail "in_telegram.mp4"
    rfl rfl (by decide) rfl).1 "No such file or directory (os error 2)" rfl
  exact ⟨⟨rfl, rfl, by decide, rfl, rfl⟩, h.1, h.2⟩

/-- C6: on a successful encoder run the process exits 0, prints the
confirmation and elapsed-time lines, and appends the size block exactly when
the file sizes of both the input and the output are readable; if either
metadata read fails the block is omitted and the run still succeeds. -/
theorem C6_best_effort_sizes (a : Args) (env : Env) (out : String)
    (hin : env.pathExists a.input = true) (hff : env.ffmpegOk = true)
    (hres : resolve_output a = some out)
    (hpass : (env.pathExists out && !a.overwrite) = false)
    (hrun : env.runOutcome (build_ffmpeg_args a out) = .exited (some 0)) :
    (main_run a env).exitCode = some 0 ∧
    (main_run a env).events =
      [.probeFfmpeg, .outPrint (msg_converting a.input), .outPrint (msg_output out),
       .outPrint (msg_settings a), .runEncoder (build_ffmpeg_args a out),
       .outPrint (msg_success out), .outPrint (msg_time env.elapsed)] ++
      sizeReport env a.input out ∧
    ((sizeReport env a.input out ≠ []) ↔
      ((∃ n, env.fileSize a.input = some n) ∧ (∃ n, env.fileSize out = some n))) := by
  have hred : main_run a env =
      ⟨[.probeFfmpeg, .outPrint (msg_converting a.input), .outPrint (msg_output out),
        .outPrint (msg_settings a), .runEncoder (build_ffmpeg_args a out)] ++
        ([.outPrint (msg_success out), .outPrint (msg_time env.elapsed)] ++
          sizeReport env a.input out), some 0⟩ := by
    rw [main_run, if_neg (by simp [hin]), if_neg (by simp [is_ffmpeg_available, hff])]
    simp only [hres]
    rw [if_neg (by simp [hpass])]
    simp only [hrun]
    simp
  refine ⟨by rw [hred], by rw [hred]; simp, ?_⟩
  rw [sizeReport]
  cases h1 : env.fileSize a.input <;> cases h2 : env.fileSize out <;> simp

/-- Environment for the C6 witness: a 10 MB input converted into a 3 MB
output, both sizes readable (the spec's end-to-end reporting scenario). -/
def envSizes : Env :=
  { pathExists := fun p => p == "in.mov", ffmpegOk := true,
    runOutcome := fun _ => .exited (some 0),
    fileSize := fun p => if p == "in.mov" then some 10485760 else some 3145728,
    elapsed := "0.00" }

/-- Witness for C6; the size block comes out as 10.0 MB / 3.0 MB / 30.0%. -/
theorem C6_best_effort_sizes_witness :
    (envSizes.pathExists wArgs.input = true ∧ envSizes.ffmpegOk = true ∧
     resolve_output wArgs = some "in_telegram.mp4" ∧
     (envSizes.pathExists "in_telegram.mp4" && !wArgs.overwrite) = false ∧
     envSizes.runOutcome (build_ffmpeg_args wArgs "in_telegram.mp4") = .exited (some 0)) ∧
    (main_run wArgs envSizes).exitCode = some 0 ∧
    (sizeReport envSizes "in.mov" "in_telegram.mp4" ≠ []) ∧
    sizeReport envSizes "in.mov" "in_telegram.mp4" =
      [.outPrint "  Input size: 10.0 MB", .outPrint "  Output size: 3.0 MB",
       .outPrint "  Size ratio: 30.0%"] := by
  have h := C6_best_effort_sizes wArgs envSizes "in_telegram.mp4" rfl rfl (by decide) rfl rfl
  refine ⟨⟨rfl, rfl, by decide, rfl, rfl⟩, h.1, ?_, by decide⟩
  exact h.2.2.mpr ⟨⟨10485760, rfl⟩, ⟨3145728, by decide⟩⟩

end TVC
